import Mathlib

/-!
Shallow embedding of the geometric core of the InequalityGames repository.

The half-plane membership test, polygon clipper, shoelace area, lattice
equivalence tester and binding classifier are translated from
src/FeasibleZone.tsx; the line canonicalization (two points to a normalized
directed line) and the canonical-line comparison are translated from
src/HalfPlaneHero.tsx.  The JavaScript floating-point numbers are modelled as
exact rationals for the clipper pipeline and as real numbers for the square
roots of the line normalization.  Presentation metadata (ids, labels, colors)
carried by the source constraint records plays no part in the geometry and is
dropped.
-/

namespace InequalityGames

/-- A 2D point, FeasibleZone.tsx type Pt. -/
structure Pt where
  x : ℚ
  y : ℚ
deriving DecidableEq, Repr

/-- The four comparators of FeasibleZone.tsx type Comparator. -/
inductive Comp
  | le
  | lt
  | ge
  | gt
deriving DecidableEq, Repr

/-- A constraint a*x + b*y comp c, FeasibleZone.tsx type Constraint
(presentation fields id, label, color dropped). -/
structure Constraint where
  a : ℚ
  b : ℚ
  c : ℚ
  comp : Comp
deriving DecidableEq, Repr

/-- Axis-aligned domain rectangle, FeasibleZone.tsx type Domain2D. -/
structure Domain2D where
  xmin : ℚ
  xmax : ℚ
  ymin : ℚ
  ymax : ℚ
deriving DecidableEq, Repr

/-- The membership tolerance 1e-9 of insideHalfPlane. -/
def memEps : ℚ := 1 / 1000000000

/-- FeasibleZone.tsx insideHalfPlane: s = a*x + b*y compared against c with
the 1e-9 tolerance, per comparator. -/
def insideHalfPlane (p : Pt) (k : Constraint) : Bool :=
  let s := k.a * p.x + k.b * p.y
  match k.comp with
  | .le => decide (s ≤ k.c + memEps)
  | .lt => decide (s < k.c - memEps)
  | .ge => decide (s ≥ k.c - memEps)
  | .gt => decide (s > k.c + memEps)

/-- The parallel-denominator threshold 1e-12 of intersectLineSegWithLine. -/
def denEps : ℚ := 1 / 1000000000000

/-- FeasibleZone.tsx intersectLineSegWithLine: parametric intersection of the
segment p-q with the constraint boundary line, falling back to q when the
denominator is below 1e-12. -/
def intersectLineSegWithLine (p q : Pt) (k : Constraint) : Pt :=
  let dx := q.x - p.x
  let dy := q.y - p.y
  let den := k.a * dx + k.b * dy
  if |den| < denEps then q
  else
    let t := (k.c - (k.a * p.x + k.b * p.y)) / den
    ⟨p.x + t * dx, p.y + t * dy⟩

/-- The edge loop of FeasibleZone.tsx clipPolyByHalfPlane.  The first argument
S_in mirrors the source exactly: there it is a const computed once, before the
loop, from the initial value of S, and it is never recomputed while S is
reassigned to each E.  The output is the concatenation of what each iteration
pushes. -/
def clipLoop (k : Constraint) (S_in : Bool) : Pt → List Pt → List Pt
  | _, [] => []
  | S, E :: rest =>
      (if insideHalfPlane E k then
        (if !S_in then [intersectLineSegWithLine S E k] else []) ++ [E]
      else if S_in then [intersectLineSegWithLine S E k] else []) ++
      clipLoop k S_in E rest

/-- Square of the near-duplicate merge distance 1e-6 of the cleanup loop.
The source compares hypot(p.x - last.x, p.y - last.y) > 1e-6; over exact
arithmetic that comparison of nonnegative numbers is equivalent to comparing
the squared distance against 1e-12, which keeps the test rational. -/
def cleanEps2 : ℚ := 1 / 1000000000000

/-- True when p and last are farther apart than the 1e-6 merge distance. -/
def farApart (p last : Pt) : Bool :=
  decide (cleanEps2 < (p.x - last.x) ^ 2 + (p.y - last.y) ^ 2)

/-- The cleanup loop of clipPolyByHalfPlane after its first kept point: each
point is kept only when farther than 1e-6 from the last kept point. -/
def cleanupLoop : Pt → List Pt → List Pt
  | _, [] => []
  | last, p :: rest =>
      if farApart p last then p :: cleanupLoop p rest else cleanupLoop last rest

/-- The tiny cleanup of clipPolyByHalfPlane: the first point is always kept
(cleaned is empty at that moment), later points only when far from the last
kept one. -/
def cleanup : List Pt → List Pt
  | [] => []
  | p :: rest => p :: cleanupLoop p rest

/-- FeasibleZone.tsx clipPolyByHalfPlane: empty in, empty out; otherwise S
starts at the last vertex, S_in is computed once from it, the edge loop runs
over all vertices and the output is cleaned up. -/
def clipPolyByHalfPlane (poly : List Pt) (k : Constraint) : List Pt :=
  match poly with
  | [] => []
  | p :: ps =>
      let S0 := ps.getLastD p
      cleanup (clipLoop k (insideHalfPlane S0 k) S0 (p :: ps))

/-- FeasibleZone.tsx initRect: the four corners of the domain rectangle in
source order. -/
def initRect (dom : Domain2D) : List Pt :=
  [⟨dom.xmin, dom.ymin⟩, ⟨dom.xmax, dom.ymin⟩, ⟨dom.xmax, dom.ymax⟩, ⟨dom.xmin, dom.ymax⟩]

/-- FeasibleZone.tsx feasiblePolygon: clip the domain rectangle by every
constraint in the caller-supplied order. -/
def feasiblePolygon (dom : Domain2D) (constraints : List Constraint) : List Pt :=
  constraints.foldl clipPolyByHalfPlane (initRect dom)

/-- The shoelace cross term a.x*b.y - a.y*b.x of polygonArea. -/
def cross (a b : Pt) : ℚ := a.x * b.y - a.y * b.x

/-- Sum of cross terms along consecutive pairs of an open path starting at
cur. -/
def pathSum : Pt → List Pt → ℚ
  | _, [] => 0
  | cur, q :: qs => cross cur q + pathSum q qs

/-- Last element of a list, with cur as the value for an empty list. -/
def lastD (cur : Pt) : List Pt → Pt
  | [] => cur
  | q :: qs => lastD q qs

/-- The signed shoelace loop sum of polygonArea: the source iterates i from 0
to n-1 adding cross(poly[i], poly[(i+1) % n]), so the pairs are the
consecutive pairs of the list followed by the closing pair (last, first). -/
def ringSum : List Pt → ℚ
  | [] => 0
  | p :: ps => pathSum p ps + cross (lastD p ps) p

/-- FeasibleZone.tsx polygonArea: 0 below 3 vertices, else half the absolute
shoelace sum. -/
def polygonArea (poly : List Pt) : ℚ :=
  if poly.length < 3 then 0 else |ringSum poly| / 2

/-- An independent statement of the shoelace sum over the implicitly closed
vertex sequence: the cross terms of the list zipped with its own rotation by
one. -/
def shoelaceZip (poly : List Pt) : ℚ :=
  ((poly.zip (poly.rotate 1)).map (fun q => cross q.1 q.2)).sum

/-- The lattice step 0.5 of systemsEquivalent. -/
def halfStep : ℚ := 1 / 2

/-- The values visited by the source loop for (v = lo; v <= hi; v += 0.5):
lo + i*0.5 for i = 0 while the value stays at or below hi, that is
floor((hi-lo)/0.5)+1 many values when lo <= hi and none otherwise. -/
def latticeVals (lo hi : ℚ) : List ℚ :=
  (List.range (if lo ≤ hi then (⌊(hi - lo) / halfStep⌋.toNat + 1) else 0)).map
    (fun i : ℕ => lo + (i : ℚ) * halfStep)

/-- FeasibleZone.tsx systemsEquivalent: false as soon as one lattice point is
in exactly one of the two systems, true when no lattice point distinguishes
them (List.all returns false at the first mismatch exactly as the source loop
returns early). -/
def systemsEquivalent (dom : Domain2D) (A B : List Constraint) : Bool :=
  (latticeVals dom.xmin dom.xmax).all fun x =>
    (latticeVals dom.ymin dom.ymax).all fun y =>
      (A.all fun k => insideHalfPlane ⟨x, y⟩ k) == (B.all fun k => insideHalfPlane ⟨x, y⟩ k)

/-- Result of FeasibleZone.tsx bindingStatus. -/
inductive BStatus
  | binding
  | slack
  | violated
deriving DecidableEq, Repr

/-- FeasibleZone.tsx bindingStatus: violated outside, binding when the
residual is within 1e-2, slack otherwise. -/
def bindingStatus (p : Pt) (k : Constraint) : BStatus :=
  let s := k.a * p.x + k.b * p.y - k.c
  if insideHalfPlane p k = false then .violated
  else if |s| ≤ 1 / 100 then .binding
  else .slack

/-- The budget constraint 2x + y <= 12 of LEVELS[0] in FeasibleZone.tsx. -/
def budget : Constraint := ⟨2, 1, 12, .le⟩

/-- The security constraint x >= 2 of LEVELS[0] in FeasibleZone.tsx. -/
def security : Constraint := ⟨1, 0, 2, .ge⟩

/-- The domain rectangle of LEVELS[0] in FeasibleZone.tsx. -/
def level1dom : Domain2D := ⟨0, 12, 0, 12⟩

/-- Modelled from the spec: the clipping walk as the spec describes it, with
the insideness of S recomputed for every edge (S, E).  This is also precisely
what the sibling copy clipRectByHalfPlane in HalfPlaneHero.tsx does.  It is
stated here only to compare clipPolyByHalfPlane against the described walk. -/
def specClipLoop (k : Constraint) : Pt → List Pt → List Pt
  | _, [] => []
  | S, E :: rest =>
      (if insideHalfPlane E k then
        (if !insideHalfPlane S k then [intersectLineSegWithLine S E k] else []) ++ [E]
      else if insideHalfPlane S k then [intersectLineSegWithLine S E k] else []) ++
      specClipLoop k E rest

/-- Modelled from the spec: clipPolyByHalfPlane as the spec describes it,
differing from the source only in recomputing the insideness of S per edge. -/
def specClipPoly (poly : List Pt) (k : Constraint) : List Pt :=
  match poly with
  | [] => []
  | p :: ps =>
      let S0 := ps.getLastD p
      cleanup (specClipLoop k S0 (p :: ps))

/-- A 2D point with real coordinates, for the HalfPlaneHero.tsx math that
takes square roots. -/
structure RPt where
  x : ℝ
  y : ℝ

/-- A line record a, b, c as returned by lineFromPoints. -/
structure RLine where
  a : ℝ
  b : ℝ
  c : ℝ

/-- The EPS constant 1e-6 of HalfPlaneHero.tsx. -/
noncomputable def EPSr : ℝ := 1 / 1000000

/-- Math.hypot on two arguments: the square root of the sum of squares. -/
noncomputable def hypot (a b : ℝ) : ℝ := Real.sqrt (a ^ 2 + b ^ 2)

/-- The JavaScript n-or-1 idiom applied to a nonnegative length: 0 is falsy
and is replaced by 1. -/
noncomputable def jsOr1 (n : ℝ) : ℝ := if n = 0 then 1 else n

/-- The sign normalization of lineFromPoints and sameLine applied to the
normal vector: when a is below EPS in magnitude the pair is negated if b < 0,
otherwise it is negated if a < 0. -/
noncomputable def fixVec (a b : ℝ) : ℝ × ℝ :=
  if |a| < EPSr then (if b < 0 then (-a, -b) else (a, b))
  else (if a < 0 then (-a, -b) else (a, b))

/-- HalfPlaneHero.tsx lineFromPoints: normal (dy, -dx) divided by its length
(or by 1 when the length is 0), sign-fixed, and c taken so the line passes
through p1. -/
noncomputable def lineFromPoints (p1 p2 : RPt) : RLine :=
  let dx := p2.x - p1.x
  let dy := p2.y - p1.y
  let n := jsOr1 (hypot dy (-dx))
  let v := fixVec (dy / n) (-dx / n)
  ⟨v.1, v.2, v.1 * p1.x + v.2 * p1.y⟩

/-- The per-line normalization step of sameLine: all three components divided
by the length of (a, b), or by 1 when that length is 0. -/
noncomputable def normTriple (u : RLine) : RLine :=
  let n := jsOr1 (hypot u.a u.b)
  ⟨u.a / n, u.b / n, u.c / n⟩

/-- The fix closure of sameLine: the sign rule of fixVec applied to all three
components. -/
noncomputable def fixTriple (u : RLine) : RLine :=
  if |u.a| < EPSr then (if u.b < 0 then ⟨-u.a, -u.b, -u.c⟩ else u)
  else (if u.a < 0 then ⟨-u.a, -u.b, -u.c⟩ else u)

/-- HalfPlaneHero.tsx sameLine: normalize and sign-fix both triples, then
compare all three components within 1e-2. -/
def sameLine (u v : RLine) : Prop :=
  let u2 := fixTriple (normTriple u)
  let v2 := fixTriple (normTriple v)
  |u2.a - v2.a| < 1 / 100 ∧ |u2.b - v2.b| < 1 / 100 ∧ |u2.c - v2.c| < 1 / 100

theorem getLastD_mem_cons (ps : List Pt) (p : Pt) : ps.getLastD p ∈ p :: ps := by
  induction ps generalizing p with
  | nil => simp
  | cons q qs ih =>
      rw [List.getLastD_cons]
      exact List.mem_cons_of_mem p (ih q)

theorem clipLoop_all_inside (k : Constraint) (l : List Pt)
    (h : ∀ p ∈ l, insideHalfPlane p k = true) :
    ∀ S : Pt, clipLoop k true S l = l := by
  induction l with
  | nil => intro S; rfl
  | cons E rest ih =>
      intro S
      have hE : insideHalfPlane E k = true := h E (List.mem_cons_self E rest)
      have hrest := ih fun p hp => h p (List.mem_cons_of_mem E hp)
      simp [clipLoop, hE, hrest E]

/-- C1: the claim reads the source as the classic walk in which each edge
(S, E) is classified by the insideness of its own start vertex S.  The code
instead computes S_in once, from the initial last vertex, and never updates
it.  On the level-1 domain rectangle and the budget constraint the edge from
(12, 0) to (12, 12) has both endpoints outside, so the described walk emits
nothing for it, yet clipPolyByHalfPlane emits the spurious intersection point
(12, -12); the output therefore differs from the walk the claim describes. -/
theorem clipPoly_stale_start_flag :
    clipPolyByHalfPlane (initRect level1dom) budget =
      [⟨0, 0⟩, ⟨6, 0⟩, ⟨12, -12⟩, ⟨0, 12⟩] ∧
    specClipPoly (initRect level1dom) budget = [⟨0, 0⟩, ⟨6, 0⟩, ⟨0, 12⟩] ∧
    insideHalfPlane ⟨12, 0⟩ budget = false ∧
    insideHalfPlane ⟨12, 12⟩ budget = false ∧
    clipPolyByHalfPlane (initRect level1dom) budget ≠
      specClipPoly (initRect level1dom) budget := by
  refine ⟨?_, ?_, ?_, ?_, ?_⟩ <;>
    norm_num [clipPolyByHalfPlane, specClipPoly, clipLoop, specClipLoop, insideHalfPlane,
      intersectLineSegWithLine, cleanup, cleanupLoop, farApart, initRect, level1dom,
      budget, memEps, denEps, cleanEps2]

/-- C2: the feasible region of LEVELS[0] computed in the two constraint
orders: the areas are 24 and 0 and the vertex lists are unrelated, so
feasiblePolygon is not order invariant (consequence of the stale S_in flag
of clipPolyByHalfPlane). -/
theorem feasiblePolygon_order_dependent :
    feasiblePolygon level1dom [budget, security] =
      [⟨2, 0⟩, ⟨6, 0⟩, ⟨2, 8⟩, ⟨12, -12⟩] ∧
    feasiblePolygon level1dom [security, budget] = [⟨9/2, 3⟩, ⟨2, 0⟩] ∧
    polygonArea (feasiblePolygon level1dom [budget, security]) = 24 ∧
    polygonArea (feasiblePolygon level1dom [security, budget]) = 0 := by
  refine ⟨?_, ?_, ?_, ?_⟩ <;>
    norm_num [feasiblePolygon, clipPolyByHalfPlane, clipLoop, insideHalfPlane,
      intersectLineSegWithLine, cleanup, cleanupLoop, farApart, initRect, level1dom,
      budget, security, memEps, denEps, cleanEps2, polygonArea, ringSum, pathSum,
      lastD, cross]

/-- C3: on the level-1 data the code returns a quadrilateral containing the
out-of-domain vertex (12, -12) and having area 24, not the expected triangle
(2,0), (6,0), (2,8) of area 16. -/
theorem level1_feasible_mismatch :
    feasiblePolygon level1dom [budget, security] =
      [⟨2, 0⟩, ⟨6, 0⟩, ⟨2, 8⟩, ⟨12, -12⟩] ∧
    polygonArea (feasiblePolygon level1dom [budget, security]) = 24 ∧
    polygonArea (feasiblePolygon level1dom [budget, security]) ≠ 16 := by
  refine ⟨?_, ?_, ?_⟩ <;>
    norm_num [feasiblePolygon, clipPolyByHalfPlane, clipLoop, insideHalfPlane,
      intersectLineSegWithLine, cleanup, cleanupLoop, farApart, initRect, level1dom,
      budget, security, memEps, denEps, cleanEps2, polygonArea, ringSum, pathSum,
      lastD, cross]

/-- C4: insideHalfPlane computes s = a*x + b*y and compares it to c with the
1e-9 tolerance exactly as the claim states for all four comparators, and on
the budget constraint 2x + y <= 12 the point (0,0) is accepted, (6,0) is
accepted and classified binding, and (7,0) is rejected. -/
theorem insideHalfPlane_formula_spec (a b c x y : ℚ) :
    (insideHalfPlane ⟨x, y⟩ ⟨a, b, c, .le⟩ = true ↔ a * x + b * y ≤ c + memEps) ∧
    (insideHalfPlane ⟨x, y⟩ ⟨a, b, c, .lt⟩ = true ↔ a * x + b * y < c - memEps) ∧
    (insideHalfPlane ⟨x, y⟩ ⟨a, b, c, .ge⟩ = true ↔ a * x + b * y ≥ c - memEps) ∧
    (insideHalfPlane ⟨x, y⟩ ⟨a, b, c, .gt⟩ = true ↔ a * x + b * y > c + memEps) ∧
    insideHalfPlane ⟨0, 0⟩ budget = true ∧
    insideHalfPlane ⟨6, 0⟩ budget = true ∧
    bindingStatus ⟨6, 0⟩ budget = BStatus.binding ∧
    insideHalfPlane ⟨7, 0⟩ budget = false := by
  refine ⟨?_, ?_, ?_, ?_, ?_, ?_, ?_, ?_⟩ <;>
    norm_num [insideHalfPlane, bindingStatus, budget, memEps]

/-- C5 counterexample: the point with x = -1e-10 satisfies x < 0 exactly, yet
insideHalfPlane rejects it for the strict constraint x < 0, because the code
tests s < c - 1e-9: the tolerance tightens strict comparators rather than
loosening them. -/
theorem strict_tolerance_cex :
    (1 * (-1/10000000000 : ℚ) + 0 * 0 < 0) ∧
    insideHalfPlane ⟨-1/10000000000, 0⟩ ⟨1, 0, 0, .lt⟩ = false := by
  constructor
  · norm_num
  · norm_num [insideHalfPlane, memEps]

/-- C5 amended: the tolerance loosens only the non-strict comparators: exact
satisfaction of a non-strict constraint implies acceptance, while for the
strict comparators acceptance implies exact satisfaction (the strict
half-planes are shrunk by the tolerance, never enlarged). -/
theorem tolerance_direction (a b c x y : ℚ) :
    (a * x + b * y ≤ c → insideHalfPlane ⟨x, y⟩ ⟨a, b, c, .le⟩ = true) ∧
    (c ≤ a * x + b * y → insideHalfPlane ⟨x, y⟩ ⟨a, b, c, .ge⟩ = true) ∧
    (insideHalfPlane ⟨x, y⟩ ⟨a, b, c, .lt⟩ = true → a * x + b * y < c) ∧
    (insideHalfPlane ⟨x, y⟩ ⟨a, b, c, .gt⟩ = true → c < a * x + b * y) := by
  have he : (0 : ℚ) < memEps := by norm_num [memEps]
  simp only [insideHalfPlane, decide_eq_true_eq, ge_iff_le, gt_iff_lt]
  exact ⟨fun h => by linarith, fun h => by linarith,
    fun h => by linarith, fun h => by linarith⟩

/-- C8: clipping a polygon every vertex of which already satisfies the
constraint returns the polygon unchanged up to the 1e-6 near-duplicate
cleanup, and exactly unchanged when the cleanup keeps every vertex. -/
theorem clip_idempotent_on_feasible (poly : List Pt) (k : Constraint)
    (hin : ∀ p ∈ poly, insideHalfPlane p k = true) :
    clipPolyByHalfPlane poly k = cleanup poly ∧
    (cleanup poly = poly → clipPolyByHalfPlane poly k = poly) := by
  have hmain : clipPolyByHalfPlane poly k = cleanup poly := by
    cases poly with
    | nil => rfl
    | cons p ps =>
        have hS : insideHalfPlane (ps.getLastD p) k = true :=
          hin _ (getLastD_mem_cons ps p)
        show cleanup (clipLoop k (insideHalfPlane (ps.getLastD p) k)
          (ps.getLastD p) (p :: ps)) = cleanup (p :: ps)
        rw [hS, clipLoop_all_inside k (p :: ps) hin (ps.getLastD p)]
  exact ⟨hmain, fun hcl => by rw [hmain, hcl]⟩

/-- C8 witness: the triangle (0,0), (4,0), (0,4) lies inside the budget
half-plane and is returned unchanged by the clip. -/
theorem clip_idempotent_on_feasible_wit :
    (∀ p ∈ [Pt.mk 0 0, Pt.mk 4 0, Pt.mk 0 4], insideHalfPlane p budget = true) ∧
    clipPolyByHalfPlane [Pt.mk 0 0, Pt.mk 4 0, Pt.mk 0 4] budget =
      cleanup [Pt.mk 0 0, Pt.mk 4 0, Pt.mk 0 4] := by
  have hin : ∀ p ∈ [Pt.mk 0 0, Pt.mk 4 0, Pt.mk 0 4], insideHalfPlane p budget = true := by
    intro p hp
    simp only [List.mem_cons, List.not_mem_nil, or_false] at hp
    rcases hp with rfl | rfl | rfl <;> norm_num [insideHalfPlane, budget, memEps]
  exact ⟨hin, (clip_idempotent_on_feasible _ budget hin).1⟩

theorem lastD_concat (x : Pt) : ∀ (cur : Pt) (ys : List Pt), lastD cur (ys ++ [x]) = x := by
  intro cur ys
  induction ys generalizing cur with
  | nil => rfl
  | cons q qs ih => exact ih q

theorem pathSum_concat (x : Pt) : ∀ (cur : Pt) (ys : List Pt),
    pathSum cur (ys ++ [x]) = pathSum cur ys + cross (lastD cur ys) x := by
  intro cur ys
  induction ys generalizing cur with
  | nil => simp [pathSum, lastD]
  | cons q qs ih =>
      simp only [List.cons_append, pathSum, lastD, List.append_eq, ih q]
      ring

theorem ringSum_rotate_one (l : List Pt) : ringSum (l.rotate 1) = ringSum l := by
  cases l with
  | nil => rfl
  | cons x xs =>
      rw [List.rotate_cons_succ, List.rotate_zero]
      cases xs with
      | nil => rfl
      | cons y ys =>
          show ringSum (y :: (ys ++ [x])) = ringSum (x :: y :: ys)
          simp only [ringSum, pathSum, lastD, pathSum_concat, lastD_concat]
          ring

theorem ringSum_rotate (l : List Pt) (n : ℕ) : ringSum (l.rotate n) = ringSum l := by
  induction n with
  | zero => rw [List.rotate_zero]
  | succ m ih =>
      have : l.rotate (m + 1) = (l.rotate m).rotate 1 := by
        rw [List.rotate_rotate]
      rw [this, ringSum_rotate_one, ih]

theorem zipCross_closed (first : Pt) : ∀ (cur : Pt) (l : List Pt),
    (((cur :: l).zip (l ++ [first])).map (fun q => cross q.1 q.2)).sum
      = pathSum cur l + cross (lastD cur l) first := by
  intro cur l
  induction l generalizing cur with
  | nil => simp [pathSum, lastD]
  | cons y ys ih =>
      simp only [List.cons_append, List.zip_cons_cons, List.map_cons, List.sum_cons,
        pathSum, lastD, ih y]
      ring

theorem ringSum_eq_shoelaceZip (l : List Pt) : ringSum l = shoelaceZip l := by
  cases l with
  | nil => rfl
  | cons x xs =>
      rw [shoelaceZip, List.rotate_cons_succ, List.rotate_zero, zipCross_closed x x xs]
      rfl

theorem shoelaceZip_short (l : List Pt) (h : l.length < 3) : shoelaceZip l = 0 := by
  match l with
  | [] => rfl
  | [x] =>
      rw [shoelaceZip, List.rotate_cons_succ, List.rotate_zero]
      simp [cross]
      ring
  | [x, y] =>
      rw [shoelaceZip, List.rotate_cons_succ, List.rotate_zero]
      simp [List.zip_cons_cons, cross]
      ring
  | x :: y :: z :: t => simp at h; omega

/-- C7: polygonArea is nonnegative, is 0 below 3 vertices, equals half the
absolute shoelace sum over the implicitly closed vertex sequence (stated via
the independent zip-with-rotation formulation), and is invariant under every
cyclic rotation of the vertex list. -/
theorem polygonArea_shoelace_rotation (poly : List Pt) (n : ℕ) :
    0 ≤ polygonArea poly ∧
    (poly.length < 3 → polygonArea poly = 0) ∧
    polygonArea poly = |shoelaceZip poly| / 2 ∧
    polygonArea (poly.rotate n) = polygonArea poly := by
  refine ⟨?_, ?_, ?_, ?_⟩
  · rw [polygonArea]
    split
    · exact le_refl 0
    · positivity
  · intro h
    rw [polygonArea, if_pos h]
  · by_cases h3 : poly.length < 3
    · rw [polygonArea, if_pos h3, shoelaceZip_short poly h3]
      norm_num
    · rw [polygonArea, if_neg h3, ringSum_eq_shoelaceZip]
  · rw [polygonArea, polygonArea, List.length_rotate, ringSum_rotate]

theorem latticeVals_level1 :
    latticeVals 0 12 = (List.range 25).map (fun i : ℕ => (i : ℚ) * halfStep) := by
  rw [latticeVals, if_pos (by norm_num)]
  have hfloor : ⌊((12 : ℚ) - 0) / halfStep⌋ = 24 := by norm_num [halfStep]
  rw [hfloor]
  have h25 : (24 : ℤ).toNat + 1 = 25 := by decide
  rw [h25]
  simp

theorem latticeHalf_ge_iff (i : ℕ) (c : ℚ) (h1 : 2 * c ≤ 5) (h2 : 4 < 2 * c) :
    c ≤ (i : ℚ) * halfStep ↔ 5 ≤ i := by
  rw [halfStep]
  constructor
  · intro h
    have h4 : (4 : ℚ) < (i : ℚ) := by linarith
    have : 4 < i := by exact_mod_cast h4
    omega
  · intro h
    have : (5 : ℚ) ≤ (i : ℚ) := by exact_mod_cast h
    linarith

/-- C6 counterexample: over the 0.5-step lattice on the level-1 domain,
systemsEquivalent reports the systems x >= 2 and x >= 2.0001 as NOT
equivalent, against the claim: the lattice point x = 2 itself lies in the
difference strip. -/
theorem sysEq_lattice_hit_cex :
    systemsEquivalent level1dom [⟨1, 0, 2, .ge⟩] [⟨1, 0, 20001/10000, .ge⟩] = false := by
  have hmem4 : ((4 : ℕ) : ℚ) * halfStep ∈ (List.range 25).map (fun i : ℕ => (i : ℚ) * halfStep) := by
    apply List.mem_map.mpr
    exact ⟨4, List.mem_range.mpr (by norm_num), rfl⟩
  have hmem0 : ((0 : ℕ) : ℚ) * halfStep ∈ (List.range 25).map (fun i : ℕ => (i : ℚ) * halfStep) := by
    apply List.mem_map.mpr
    exact ⟨0, List.mem_range.mpr (by norm_num), rfl⟩
  simp only [systemsEquivalent, level1dom, latticeVals_level1]
  apply List.all_eq_false.mpr
  refine ⟨((4 : ℕ) : ℚ) * halfStep, hmem4, ?_⟩
  rw [Bool.not_eq_true]
  apply List.all_eq_false.mpr
  refine ⟨((0 : ℕ) : ℚ) * halfStep, hmem0, ?_⟩
  norm_num [insideHalfPlane, memEps, halfStep]

/-- C6 amended: the lattice tester returns false on the claimed pair because
the threshold 2 is itself a lattice value; the blind spot the spec means does
show once the thresholds avoid lattice points: x >= 2.2 versus x >= 2.2001
differ only on a strip missing every lattice point and are reported
equivalent. -/
theorem sysEq_lattice_resolution :
    systemsEquivalent level1dom [⟨1, 0, 2, .ge⟩] [⟨1, 0, 20001/10000, .ge⟩] = false ∧
    systemsEquivalent level1dom [⟨1, 0, 11/5, .ge⟩] [⟨1, 0, 22001/10000, .ge⟩] = true := by
  constructor
  · have hmem4 : ((4 : ℕ) : ℚ) * halfStep ∈ (List.range 25).map (fun i : ℕ => (i : ℚ) * halfStep) := by
      apply List.mem_map.mpr
      exact ⟨4, List.mem_range.mpr (by norm_num), rfl⟩
    have hmem0 : ((0 : ℕ) : ℚ) * halfStep ∈ (List.range 25).map (fun i : ℕ => (i : ℚ) * halfStep) := by
      apply List.mem_map.mpr
      exact ⟨0, List.mem_range.mpr (by norm_num), rfl⟩
    simp only [systemsEquivalent, level1dom, latticeVals_level1]
    apply List.all_eq_false.mpr
    refine ⟨((4 : ℕ) : ℚ) * halfStep, hmem4, ?_⟩
    rw [Bool.not_eq_true]
    apply List.all_eq_false.mpr
    refine ⟨((0 : ℕ) : ℚ) * halfStep, hmem0, ?_⟩
    norm_num [insideHalfPlane, memEps, halfStep]
  · simp only [systemsEquivalent, level1dom, latticeVals_level1]
    apply List.all_eq_true.mpr
    intro x hx
    obtain ⟨i, hi, rfl⟩ := List.mem_map.mp hx
    apply List.all_eq_true.mpr
    intro y hy
    simp only [List.all_cons, List.all_nil, Bool.and_true, insideHalfPlane, ge_iff_le]
    have hval : 1 * ((i : ℚ) * halfStep) + 0 * y = (i : ℚ) * halfStep := by
      ring
    rw [hval, beq_iff_eq, decide_eq_decide]
    rw [latticeHalf_ge_iff i (11/5 - memEps) (by norm_num [memEps]) (by norm_num [memEps]),
      latticeHalf_ge_iff i (22001/10000 - memEps) (by norm_num [memEps]) (by norm_num [memEps])]

theorem sameLine_refl (u : RLine) : sameLine u u := by
  unfold sameLine
  norm_num

theorem fixVec_sign_cases (a b : ℝ) : fixVec a b = (a, b) ∨ fixVec a b = (-a, -b) := by
  unfold fixVec
  split_ifs <;> simp

theorem fixVec_neg_of_unit (a b : ℝ) (hu : a ^ 2 + b ^ 2 = 1) :
    fixVec (-a) (-b) = fixVec a b := by
  have hEPS : (0 : ℝ) < EPSr := by norm_num [EPSr]
  by_cases ha : |a| < EPSr
  · have hb : b ≠ 0 := by
      intro hb0
      rw [hb0] at hu
      have h1 : |a| = 1 := by nlinarith [sq_abs a, abs_nonneg a]
      rw [h1] at ha
      norm_num [EPSr] at ha
    unfold fixVec
    rw [abs_neg]
    rcases lt_or_gt_of_ne hb with hbneg | hbpos
    · rw [if_pos ha, if_pos ha, if_neg (by linarith : ¬ -b < 0), if_pos hbneg]
    · rw [if_pos ha, if_pos ha, if_pos (by linarith : -b < 0), if_neg (by linarith : ¬ b < 0)]
      simp
  · have ha0 : a ≠ 0 := by
      intro h0
      rw [h0] at ha
      simp at ha
      linarith
    unfold fixVec
    rw [abs_neg]
    rcases lt_or_gt_of_ne ha0 with haneg | hapos
    · rw [if_neg ha, if_neg ha, if_neg (by linarith : ¬ -a < 0), if_pos haneg]
    · rw [if_neg ha, if_neg ha, if_pos (by linarith : -a < 0), if_neg (by linarith : ¬ a < 0)]
      simp

theorem lineFromPoints_swap (p1 p2 : RPt) (h : p1 ≠ p2) :
    lineFromPoints p1 p2 = lineFromPoints p2 p1 := by
  obtain ⟨x1, y1⟩ := p1
  obtain ⟨x2, y2⟩ := p2
  have hne : x2 - x1 ≠ 0 ∨ y2 - y1 ≠ 0 := by
    by_contra hc
    push_neg at hc
    refine h ?_
    simp only [RPt.mk.injEq]
    constructor <;> linarith [hc.1, hc.2]
  have hpos : 0 < (y2 - y1) ^ 2 + (x2 - x1) ^ 2 := by
    rcases hne with h1 | h1
    · have h2 := pow_pos (abs_pos.mpr h1) 2
      rw [sq_abs] at h2
      nlinarith [sq_nonneg (y2 - y1)]
    · have h2 := pow_pos (abs_pos.mpr h1) 2
      rw [sq_abs] at h2
      nlinarith [sq_nonneg (x2 - x1)]
  set d := Real.sqrt ((y2 - y1) ^ 2 + (x2 - x1) ^ 2) with hd
  have hdpos : 0 < d := Real.sqrt_pos.mpr hpos
  have hdne : d ≠ 0 := ne_of_gt hdpos
  have hd2 : d ^ 2 = (y2 - y1) ^ 2 + (x2 - x1) ^ 2 := Real.sq_sqrt hpos.le
  have hhyp1 : hypot (y2 - y1) (-(x2 - x1)) = d := by
    rw [hypot, hd]
    congr 1
    ring
  have hhyp2 : hypot (y1 - y2) (-(x1 - x2)) = d := by
    rw [hypot, hd]
    congr 1
    ring
  have hjs : jsOr1 d = d := if_neg hdne
  have hunit : ((y2 - y1) / d) ^ 2 + (-(x2 - x1) / d) ^ 2 = 1 := by
    field_simp
    linarith [hd2]
  have hswap : fixVec ((y1 - y2) / d) (-(x1 - x2) / d)
      = fixVec ((y2 - y1) / d) (-(x2 - x1) / d) := by
    have e1 : (y1 - y2) / d = -((y2 - y1) / d) := by ring
    have e2 : -(x1 - x2) / d = -(-(x2 - x1) / d) := by ring
    rw [e1, e2, fixVec_neg_of_unit _ _ hunit]
  show RLine.mk _ _ _ = RLine.mk _ _ _
  simp only [hhyp1, hhyp2, hjs, hswap]
  have hc : ∀ v : ℝ × ℝ, v = fixVec ((y2 - y1) / d) (-(x2 - x1) / d) →
      v.1 * x1 + v.2 * y1 = v.1 * x2 + v.2 * y2 := by
    intro v hv
    rcases fixVec_sign_cases ((y2 - y1) / d) (-(x2 - x1) / d) with hcase | hcase <;>
      rw [hv, hcase] <;> field_simp <;> ring
  simp only [RLine.mk.injEq, true_and]
  exact hc _ rfl

/-- C9: swapping the two input points does not change the canonical line:
in exact arithmetic lineFromPoints is symmetric in its arguments and the two
canonical forms satisfy sameLine. -/
theorem lineFromPoints_direction_symm (p1 p2 : RPt) (h : p1 ≠ p2) :
    sameLine (lineFromPoints p1 p2) (lineFromPoints p2 p1) := by
  rw [lineFromPoints_swap p1 p2 h]
  exact sameLine_refl _

/-- C9 witness: the two canonicalizations of the segment from (0,0) to (1,0)
agree. -/
theorem lineFromPoints_direction_symm_wit :
    (RPt.mk 0 0 ≠ RPt.mk 1 0) ∧
    sameLine (lineFromPoints ⟨0, 0⟩ ⟨1, 0⟩) (lineFromPoints ⟨1, 0⟩ ⟨0, 0⟩) := by
  have hne : RPt.mk 0 0 ≠ RPt.mk 1 0 := by
    intro hc
    have h01 : (0 : ℝ) = 1 := congrArg RPt.x hc
    norm_num at h01
  exact ⟨hne, lineFromPoints_direction_symm _ _ hne⟩

/-- C10: on coincident input points lineFromPoints is total and returns
exactly the zero triple: the zero-length normal makes the normalizing factor
fall back to 1 (the n-or-1 idiom), so all components are exactly 0. -/
theorem lineFromPoints_coincident_total (p : RPt) :
    lineFromPoints p p = ⟨0, 0, 0⟩ ∧ jsOr1 (hypot 0 0) = 1 := by
  constructor
  · obtain ⟨x, y⟩ := p
    show RLine.mk _ _ _ = RLine.mk 0 0 0
    norm_num [hypot, jsOr1, fixVec, EPSr]
  · norm_num [hypot, jsOr1]

end InequalityGames
